import Mathlib

/-!
Verification of the promkit rendering-core specification against a shallow
embedding of the Rust source.

Embedded modules:
- promkit/src/core/cursor/composite.rs : CompositeCursor over a bundle of
  blocks, each exposing only a length (the Len trait), so a block is
  modelled by its length (a Nat).
- promkit/src/grapheme.rs : StyledGrapheme / StyledGraphemes and the
  algorithms replace_range, matrixify, truncate_to_width.
- src/lib.rs : the per-tick exit decision of Prompt::run.
- src/selectbox.rs : SelectBox navigation.

Rust conventions mapped to Lean:
- usize is Nat; a debug-mode underflow panic (x - 1 with x = 0) and a
  panicking library call (VecDeque::insert out of bounds, unwrap of None,
  slice::chunks with chunk size 0, division by zero) are modelled by an
  Option result, none meaning a panic.
- a &mut self method returning bool becomes a function returning
  (new state, Bool).
-/

namespace Promkit

/-! ## Composite cursor (promkit/src/core/cursor/composite.rs)

The bundle is a list of blocks; the Len trait exposes only each block's
length, so blocks are modelled by their lengths. -/

structure CompositeCursor where
  bundle : List Nat
  cross_contents_position : Nat
  deriving Repr, DecidableEq

namespace CompositeCursor

/-- Sum of the block lengths, the inlined
`self.bundle.iter().map(|c| c.len()).sum()` of the source. -/
def totalLen (c : CompositeCursor) : Nat := c.bundle.sum

/-- `CompositeCursor::new`: clamps an out-of-range initial position to
total - 1 (saturating, hence 0 when the bundle is empty). -/
def new (bundle : List Nat) (position : Nat) : CompositeCursor :=
  let total_len := bundle.sum
  let adjusted_position := if position ≥ total_len then total_len - 1 else position
  ⟨bundle, adjusted_position⟩

/-- `CompositeCursor::shift(backward, forward)`. -/
def shift (c : CompositeCursor) (backward forward : Nat) : CompositeCursor × Bool :=
  let total_len := c.totalLen
  if backward > c.cross_contents_position then
    (c, false)
  else
    let new_position := c.cross_contents_position - backward
    if new_position + forward < total_len then
      ({ c with cross_contents_position := new_position + forward }, true)
    else
      (c, false)

/-- `CompositeCursor::forward`. -/
def forward (c : CompositeCursor) : CompositeCursor × Bool :=
  if c.cross_contents_position < c.totalLen - 1 then
    ({ c with cross_contents_position := c.cross_contents_position + 1 }, true)
  else
    (c, false)

/-- `CompositeCursor::backward`. -/
def backward (c : CompositeCursor) : CompositeCursor × Bool :=
  if c.cross_contents_position > 0 then
    ({ c with cross_contents_position := c.cross_contents_position - 1 }, true)
  else
    (c, false)

/-- `CompositeCursor::move_to_head`. -/
def move_to_head (c : CompositeCursor) : CompositeCursor :=
  { c with cross_contents_position := 0 }

/-- `CompositeCursor::move_to_tail`. -/
def move_to_tail (c : CompositeCursor) : CompositeCursor :=
  if c.totalLen = 0 then
    { c with cross_contents_position := 0 }
  else
    { c with cross_contents_position := c.totalLen - 1 }

/-- The scan loop of `current_bundle_index_and_inner_position`:
walk the bundle accumulating lengths until the running total exceeds the
position. -/
def scanBundle (pos : Nat) : List Nat → Nat → Nat → Option (Nat × Nat)
  | [], _, _ => none
  | len :: rest, idx, acc =>
      if acc + len > pos then some (idx, pos - acc)
      else scanBundle pos rest (idx + 1) (acc + len)

/-- `CompositeCursor::current_bundle_index_and_inner_position`: the scan,
then the fallback `(bundle.len() - 1, bundle.last().unwrap().len() - 1)`.
The fallback panics (none) when the bundle is empty (underflow and unwrap
of None) or the last block has length 0 (underflow). -/
def current_bundle_index_and_inner_position (c : CompositeCursor) :
    Option (Nat × Nat) :=
  match scanBundle c.cross_contents_position c.bundle 0 0 with
  | some r => some r
  | none =>
      match c.bundle.getLast? with
      | none => none
      | some lastLen =>
          if lastLen = 0 then none
          else some (c.bundle.length - 1, lastLen - 1)

/-- The documented invariant: position < total length, or position = 0
when the total length is 0. -/
def CursorInv (c : CompositeCursor) : Prop :=
  if c.totalLen = 0 then c.cross_contents_position = 0
  else c.cross_contents_position < c.totalLen

instance (c : CompositeCursor) : Decidable (CursorInv c) := by
  unfold CursorInv; infer_instance

end CompositeCursor

end Promkit

namespace Promkit

/-! ## Styled graphemes (promkit/src/grapheme.rs)

A StyledGrapheme stores one character, its display width, and its style.
The style type comes from the external crossterm crate (ContentStyle:
three optional colors plus an attribute set); colors are modelled as Nat
codes and the attribute set as a Nat bitmask, which preserves exactly the
structure the claims need (default style versus any other style).
The VecDeque of the source is modelled as a List. -/

structure ContentStyle where
  foreground_color : Option Nat
  background_color : Option Nat
  underline_color : Option Nat
  attributes : Nat
  deriving Repr, DecidableEq

/-- `ContentStyle::default()`: no colors, no attributes. -/
def ContentStyle.default : ContentStyle := ⟨none, none, none, 0⟩

/-- Display width of one character. In the source this is
`UnicodeWidthChar::width(ch).unwrap_or(0)` from the external unicode-width
crate, which is outside this repository; it is modelled here by a simple
total stand-in (control characters width 0, others width 1). No claim
below depends on the value this function takes at any character. -/
def charWidth (c : Char) : Nat := if c.val < 32 then 0 else 1

structure StyledGrapheme where
  ch : Char
  width : Nat
  style : ContentStyle
  deriving Repr, DecidableEq

/-- `StyledGrapheme::new(ch, style)`: the width is computed from the
character. -/
def StyledGrapheme.new (ch : Char) (style : ContentStyle) : StyledGrapheme :=
  ⟨ch, charWidth ch, style⟩

/-- `StyledGraphemes::from_str(string, style)`: one unit per character,
all carrying the given style. -/
def from_str (string : List Char) (style : ContentStyle) : List StyledGrapheme :=
  string.map (fun ch => StyledGrapheme.new ch style)

/-- `StyledGraphemes::chars`. -/
def graphemeChars (s : List StyledGrapheme) : List Char :=
  s.map StyledGrapheme.ch

/-- `StyledGraphemes::widths`: total display width. -/
def widths (s : List StyledGrapheme) : Nat :=
  (s.map StyledGrapheme.width).sum

/-- The removal loop of `replace_range`: `for _ in range.clone()` runs
range.end - range.start times, each time calling
`VecDeque::remove(range.start)`, which removes the element when the index
is in bounds and leaves the deque unchanged otherwise (it returns None,
which the source discards). List.eraseIdx has exactly that behaviour. -/
def removeLoop (start : Nat) : Nat → List StyledGrapheme → List StyledGrapheme
  | 0, s => s
  | k + 1, s => removeLoop start k (s.eraseIdx start)

/-- The insertion loop of `replace_range`: the replacement units are
walked in reverse, each inserted at range.start by `VecDeque::insert`,
which panics when the index exceeds the current length (modelled as
none). This function receives the already-reversed unit list. -/
def insertLoop (start : Nat) : List StyledGrapheme → List StyledGrapheme →
    Option (List StyledGrapheme)
  | s, [] => some s
  | s, g :: gs =>
      if start ≤ s.length then
        insertLoop start (s.take start ++ g :: s.drop start) gs
      else
        none

/-- `StyledGraphemes::replace_range(range, replacement)`: remove the range
(out-of-bounds removals are silent no-ops), then insert the replacement,
converted with the default style, at range.start (insertion panics when
range.start exceeds the length left after removal). -/
def replace_range (s : List StyledGrapheme) (start stop : Nat)
    (replacement : List Char) : Option (List StyledGrapheme) :=
  let removed := removeLoop start (stop - start) s
  insertLoop start removed (from_str replacement ContentStyle.default).reverse

/-- One iteration of the row-packing loop of `matrixify`: close the
current row when it is nonempty and the unit would overflow the width,
then append the unit unless it alone is wider than the width. -/
def matrixStep (width : Nat)
    (st : List (List StyledGrapheme) × List StyledGrapheme)
    (styled : StyledGrapheme) :
    List (List StyledGrapheme) × List StyledGrapheme :=
  let all := st.1
  let row := st.2
  let width_with_next_char := widths row + styled.width
  let closed :=
    if row ≠ [] ∧ width < width_with_next_char
    then (all ++ [row], ([] : List StyledGrapheme))
    else (all, row)
  if styled.width ≤ width then (closed.1, closed.2 ++ [styled])
  else (closed.1, closed.2)

/-- The row-building phase of `matrixify`: fold the packing step over the
units, then push the final nonempty row. -/
def buildRows (s : List StyledGrapheme) (width : Nat) :
    List (List StyledGrapheme) :=
  let st := s.foldl (matrixStep width) ([], [])
  if st.2 ≠ [] then st.1 ++ [st.2] else st.1

/-- `slice::chunks(n)`: split into consecutive chunks of size n, the last
possibly shorter. Rust panics when n = 0; matrixify only calls this with
a nonzero height (and the 0 case below is never reached there because
matrixify guards it, returning none). -/
def chunksGo {α : Type} (n : Nat) : Nat → List α → List (List α)
  | _, [] => []
  | 0, _ :: _ => []
  | fuel + 1, x :: xs =>
      if n = 0 then []
      else (x :: xs).take n :: chunksGo n fuel ((x :: xs).drop n)

/-- Entry point of the chunking: the fuel is the list length, which the
recursion never exhausts when n is nonzero (each step strips at least one
element), so chunksGo is an exact model of `slice::chunks(n)` here. -/
def chunksOf {α : Type} (n : Nat) (l : List α) : List (List α) :=
  chunksGo n l.length l

/-- `StyledGraphemes::matrixify(width, height, offset)`: build the wrapped
rows, return ([], 0) for no rows, otherwise chunk into pages of height
rows (`chunks` panics when height = 0, modelled as none), select the page
floor(offset/height) clamped to the last page, and pair it with
offset mod height. -/
def matrixify (s : List StyledGrapheme) (width height offset : Nat) :
    Option (List (List StyledGrapheme) × Nat) :=
  let all := buildRows s width
  if all.isEmpty then some ([], 0)
  else if height = 0 then none
  else
    let chunks := chunksOf height all
    let chunk_index := min (offset / height) (chunks.length - 1)
    let selected_chunk := (chunks.get? chunk_index).getD []
    some (selected_chunk, offset % height)

/-- The loop of `truncate_to_width`: stop at the first unit that would
push the accumulated row beyond the width; otherwise append it when it
fits the width on its own. -/
def truncAux (width : Nat) : List StyledGrapheme → List StyledGrapheme →
    List StyledGrapheme
  | row, [] => row
  | row, ch :: rest =>
      let width_with_next_char := widths row + ch.width
      if width < width_with_next_char then row
      else if ch.width ≤ width then truncAux width (row ++ [ch]) rest
      else truncAux width row rest

/-- `StyledGraphemes::truncate_to_width(width)`. -/
def truncate_to_width (s : List StyledGrapheme) (width : Nat) :
    List StyledGrapheme :=
  truncAux width [] s

end Promkit

namespace Promkit

/-! ## Prompt loop (src/lib.rs, Prompt::run)

One loop iteration (a tick) after the blocking event read: dispatch the
event to each renderer in registration order until one returns Quit
(setting should_quit and breaking) or fails (propagating the error), then
call the evaluator, then break out of the loop exactly when should_quit
and the evaluator's value are both true; otherwise redraw and continue.
A renderer response and the evaluator result are modelled by Except with
an opaque Unit error payload. -/

inductive EventAction where
  | Continue : EventAction
  | Quit : EventAction
  deriving Repr, DecidableEq

/-- What a single tick of the Prompt::run loop decides. -/
inductive TickOutcome where
  | exitLoop : TickOutcome
  | continueLoop : TickOutcome
  | propagatedError : TickOutcome
  deriving Repr, DecidableEq

/-- The dispatch loop over the renderer responses for this tick: the
first Quit sets the flag and stops dispatch; an error before that
propagates; otherwise the flag stays false. -/
def dispatchQuit : List (Except Unit EventAction) → Except Unit Bool
  | [] => Except.ok false
  | Except.ok EventAction.Quit :: _ => Except.ok true
  | Except.ok EventAction.Continue :: rest => dispatchQuit rest
  | Except.error e :: _ => Except.error e

/-- One tick of the loop body: dispatch, then evaluate, then exit the
loop only when both should_quit and is_ready_for_output hold. -/
def runTick (responses : List (Except Unit EventAction))
    (evaluated : Except Unit Bool) : TickOutcome :=
  match dispatchQuit responses with
  | Except.error _ => TickOutcome.propagatedError
  | Except.ok should_quit =>
      match evaluated with
      | Except.error _ => TickOutcome.propagatedError
      | Except.ok is_ready_for_output =>
          if should_quit && is_ready_for_output then TickOutcome.exitLoop
          else TickOutcome.continueLoop

end Promkit

namespace Promkit

/-! ## SelectBox (src/selectbox.rs)

The candidates are stored as a list of grapheme sequences; only the list
shape matters to the claims, so an entry is modelled as a list of
characters. The interior-mutable index Cell is modelled as a plain
field. -/

structure SelectBox where
  data : List (List Char)
  idx : Nat
  deriving Repr, DecidableEq

/-- `SelectBox::to_tail`: sets the index to data.len() - 1, a usize
subtraction that underflows (debug panic, modelled as none) when the data
list is empty. -/
def SelectBox.to_tail (b : SelectBox) : Option SelectBox :=
  if b.data.length = 0 then none
  else some { b with idx := b.data.length - 1 }

end Promkit

/-! ## Theorems: composite cursor claims -/

namespace Promkit

open CompositeCursor

theorem totalLen_new (b : List Nat) (p : Nat) : (new b p).totalLen = b.sum := rfl

theorem inv_new (b : List Nat) (p : Nat) : CursorInv (new b p) := by
  unfold CursorInv new totalLen
  by_cases h0 : b.sum = 0
  · simp [h0]
  · simp only [h0, if_false]
    by_cases hp : p ≥ b.sum
    · simp only [hp, if_true]
      omega
    · simp only [hp, if_false]
      omega

theorem inv_forward (c : CompositeCursor) (h : CursorInv c) : CursorInv (c.forward).1 := by
  unfold CursorInv at *
  unfold forward
  by_cases hc : c.cross_contents_position < c.totalLen - 1
  · simp only [hc, if_true]
    have : ({ c with cross_contents_position := c.cross_contents_position + 1 } :
        CompositeCursor).totalLen = c.totalLen := rfl
    simp only [this]
    split <;> omega
  · simp only [hc, if_false]
    exact h

theorem inv_backward (c : CompositeCursor) (h : CursorInv c) : CursorInv (c.backward).1 := by
  unfold CursorInv at *
  unfold backward
  by_cases hc : c.cross_contents_position > 0
  · simp only [hc, if_true]
    have : ({ c with cross_contents_position := c.cross_contents_position - 1 } :
        CompositeCursor).totalLen = c.totalLen := rfl
    simp only [this]
    split at h <;> split <;> omega
  · simp only [hc, if_false]
    exact h

theorem inv_shift (c : CompositeCursor) (back fwd : Nat) (h : CursorInv c) :
    CursorInv (c.shift back fwd).1 := by
  unfold CursorInv at *
  unfold shift
  by_cases h1 : back > c.cross_contents_position
  · simp only [h1, if_true]
    exact h
  · simp only [h1, if_false]
    by_cases h2 : c.cross_contents_position - back + fwd < c.totalLen
    · simp only [h2, if_true]
      have : ({ c with cross_contents_position := c.cross_contents_position - back + fwd } :
          CompositeCursor).totalLen = c.totalLen := rfl
      simp only [this]
      split <;> omega
    · simp only [h2, if_false]
      exact h

theorem inv_move_to_head (c : CompositeCursor) : CursorInv (c.move_to_head) := by
  unfold CursorInv move_to_head totalLen
  dsimp only
  split <;> omega

theorem inv_move_to_tail (c : CompositeCursor) : CursorInv (c.move_to_tail) := by
  unfold CursorInv move_to_tail totalLen
  by_cases h0 : c.bundle.sum = 0
  · simp [h0]
  · rw [if_neg h0]
    dsimp only
    rw [if_neg h0]
    omega

/-- Helper: a list of naturals sums to 0 exactly when every element is 0. -/
theorem sum_zero_all_zero {l : List Nat} (h : l.sum = 0) : ∀ x ∈ l, x = 0 := by
  induction l with
  | nil => intro x hx; cases hx
  | cons a t ih =>
      intro x hx
      simp only [List.sum_cons] at h
      rcases List.mem_cons.mp hx with h1 | h2
      · omega
      · exact ih (by omega) x h2

/-- Helper: the scan loop finds nothing in an all-zero bundle: the
running total never exceeds the position. -/
theorem scanBundle_all_zero (pos : Nat) (l : List Nat) (h : ∀ x ∈ l, x = 0) :
    ∀ idx, scanBundle pos l idx 0 = none := by
  induction l with
  | nil => intro idx; rfl
  | cons a t ih =>
      intro idx
      have ha : a = 0 := h a (List.mem_cons_self a t)
      have ht : ∀ x ∈ t, x = 0 := fun x hx => h x (List.mem_cons_of_mem a hx)
      unfold scanBundle
      subst ha
      simp only [Nat.add_zero, Nat.zero_add]
      rw [if_neg (by omega)]
      exact ih ht (idx + 1)

/-- C2: the invariant (position < total length, or position = 0 when the
total length is 0) holds after construction at any initial position and is
preserved by forward, backward, shift, move_to_head and move_to_tail. -/
theorem composite_cursor_invariant (b : List Nat) (p : Nat)
    (c : CompositeCursor) (back fwd : Nat) (h : CursorInv c) :
    CursorInv (CompositeCursor.new b p) ∧
    CursorInv (c.forward).1 ∧
    CursorInv (c.backward).1 ∧
    CursorInv (c.shift back fwd).1 ∧
    CursorInv c.move_to_head ∧
    CursorInv c.move_to_tail :=
  ⟨inv_new b p, inv_forward c h, inv_backward c h, inv_shift c back fwd h,
   inv_move_to_head c, inv_move_to_tail c⟩

/-- Witness for C2 at a concrete cursor satisfying the invariant. -/
theorem composite_cursor_invariant_witness :
    CursorInv (⟨[2, 3], 1⟩ : CompositeCursor) ∧
    (CursorInv (CompositeCursor.new [2, 3] 7) ∧
     CursorInv ((⟨[2, 3], 1⟩ : CompositeCursor).forward).1 ∧
     CursorInv ((⟨[2, 3], 1⟩ : CompositeCursor).backward).1 ∧
     CursorInv ((⟨[2, 3], 1⟩ : CompositeCursor).shift 1 2).1 ∧
     CursorInv (⟨[2, 3], 1⟩ : CompositeCursor).move_to_head ∧
     CursorInv (⟨[2, 3], 1⟩ : CompositeCursor).move_to_tail) :=
  ⟨by decide, composite_cursor_invariant [2, 3] 7 ⟨[2, 3], 1⟩ 1 2 (by decide)⟩

/-- C5: shift(back, fwd) either moves the position to exactly
position - back + fwd and returns true, or leaves the cursor unchanged and
returns false; it fails exactly when back exceeds the position or
position - back + fwd would not stay strictly below the total length. -/
theorem shift_all_or_nothing (c : CompositeCursor) (back fwd : Nat) :
    (((c.shift back fwd).2 = true ∧
      (c.shift back fwd).1.cross_contents_position
        = c.cross_contents_position - back + fwd ∧
      (c.shift back fwd).1.bundle = c.bundle) ∨
     ((c.shift back fwd).2 = false ∧ (c.shift back fwd).1 = c)) ∧
    ((c.shift back fwd).2 = false ↔
      back > c.cross_contents_position ∨
        ¬(c.cross_contents_position - back + fwd < c.totalLen)) := by
  unfold shift
  by_cases h1 : back > c.cross_contents_position
  · simp [h1]
  · rw [if_neg h1]
    by_cases h2 : c.cross_contents_position - back + fwd < c.totalLen
    · rw [if_pos h2]
      constructor
      · left; exact ⟨rfl, rfl, rfl⟩
      · simp [h1, h2]
    · rw [if_neg h2]
      constructor
      · right; exact ⟨rfl, rfl⟩
      · simp [h2]

/-- C8: when forward() succeeds, a subsequent backward() restores the
original position; and after move_to_tail(), forward() returns false and
leaves the cursor unchanged. -/
theorem forward_backward_round_trip (c : CompositeCursor) :
    ((c.forward).2 = true →
      (((c.forward).1.backward).1.cross_contents_position
        = c.cross_contents_position ∧
       ((c.forward).1.backward).2 = true)) ∧
    ((c.move_to_tail.forward).2 = false ∧
     (c.move_to_tail.forward).1 = c.move_to_tail) := by
  constructor
  · intro hf
    unfold forward at *
    by_cases hc : c.cross_contents_position < c.totalLen - 1
    · rw [if_pos hc]
      unfold backward
      dsimp only
      rw [if_pos (by omega)]
      exact ⟨by dsimp only; omega, rfl⟩
    · rw [if_neg hc] at hf
      exact absurd hf (by simp)
  · have hb : c.move_to_tail.totalLen = c.totalLen := by
      unfold move_to_tail totalLen
      split <;> rfl
    have hpos : c.move_to_tail.cross_contents_position = c.totalLen - 1 := by
      unfold move_to_tail
      split
      · dsimp only; omega
      · rfl
    unfold forward
    rw [hb, hpos, if_neg (by omega)]
    exact ⟨rfl, rfl⟩

/-- Witness for C8 at a concrete cursor where forward succeeds. -/
theorem forward_backward_round_trip_witness :
    (((⟨[2, 3], 1⟩ : CompositeCursor).forward).2 = true ∧
     ((((⟨[2, 3], 1⟩ : CompositeCursor).forward).1.backward).1.cross_contents_position = 1 ∧
      (((⟨[2, 3], 1⟩ : CompositeCursor).forward).1.backward).2 = true)) ∧
    (((⟨[2, 3], 1⟩ : CompositeCursor).move_to_tail.forward).2 = false) :=
  ⟨⟨by decide, (forward_backward_round_trip ⟨[2, 3], 1⟩).1 (by decide)⟩,
   (forward_backward_round_trip ⟨[2, 3], 1⟩).2.1⟩

/-- C9: when the total length is 0 (empty bundle or all blocks empty),
current_bundle_index_and_inner_position reaches the fallback branch and
panics (modelled as none) rather than returning a clamped pair. -/
theorem current_bundle_panics_on_empty (c : CompositeCursor)
    (h : c.totalLen = 0) :
    c.current_bundle_index_and_inner_position = none := by
  unfold current_bundle_index_and_inner_position
  have hall : ∀ x ∈ c.bundle, x = 0 := sum_zero_all_zero h
  rw [scanBundle_all_zero c.cross_contents_position c.bundle hall 0]
  match hb : c.bundle with
  | [] => rfl
  | a :: t =>
      have hlast : (a :: t).getLast? = some ((a :: t).getLast (by simp)) :=
        List.getLast?_eq_getLast _ (by simp)
      rw [hlast]
      have hmem : (a :: t).getLast (by simp) ∈ a :: t := List.getLast_mem _
      have hz : (a :: t).getLast (by simp) = 0 := by
        rw [hb] at hall
        exact hall _ hmem
      simp [hz]

/-- Witness for C9: a nonempty bundle whose blocks are all empty. -/
theorem current_bundle_panics_on_empty_witness :
    (⟨[0, 0], 0⟩ : CompositeCursor).totalLen = 0 ∧
    (⟨[0, 0], 0⟩ : CompositeCursor).current_bundle_index_and_inner_position
      = none :=
  ⟨by decide, current_bundle_panics_on_empty ⟨[0, 0], 0⟩ (by decide)⟩

end Promkit

namespace Promkit

/-! ### replace_range lemmas -/

/-- The removal loop deletes exactly the k elements after position start
(fewer when the list runs out). -/
theorem removeLoop_eq (start : Nat) :
    ∀ (k : Nat) (s : List StyledGrapheme), start ≤ s.length →
      removeLoop start k s = s.take start ++ s.drop (start + k) := by
  intro k
  induction k with
  | zero =>
      intro s _
      simp [removeLoop]
  | succ k ih =>
      intro s hs
      have htk : (s.take start).length = start := by
        simp [Nat.min_eq_left hs]
      unfold removeLoop
      have herase : s.eraseIdx start = s.take start ++ s.drop (start + 1) :=
        List.eraseIdx_eq_take_drop_succ s start
      have hlen : start ≤ (s.eraseIdx start).length := by
        rw [herase, List.length_append, htk]
        omega
      rw [ih (s.eraseIdx start) hlen, herase]
      rw [List.take_append_of_le_length (by omega), List.take_take,
        Nat.min_self]
      have hdrop : (s.take start ++ s.drop (start + 1)).drop (start + k)
          = s.drop (start + (k + 1)) := by
        have h1 : start + k = start + k := rfl
        calc (s.take start ++ s.drop (start + 1)).drop (start + k)
            = ((s.take start ++ s.drop (start + 1)).drop start).drop k := by
              rw [List.drop_drop]
          _ = (s.drop (start + 1)).drop k := by rw [List.drop_left' htk]
          _ = s.drop (start + 1 + k) := by rw [List.drop_drop]
          _ = s.drop (start + (k + 1)) := by
              have : start + 1 + k = start + (k + 1) := by omega
              rw [this]
      rw [hdrop]

/-- The insertion loop inserts its units, reversed, at position start;
it never panics when start is within the list. -/
theorem insertLoop_eq (start : Nat) :
    ∀ (gs s : List StyledGrapheme), start ≤ s.length →
      insertLoop start s gs = some (s.take start ++ gs.reverse ++ s.drop start) := by
  intro gs
  induction gs with
  | nil =>
      intro s _
      simp [insertLoop]
  | cons g gs ih =>
      intro s hs
      have htk : (s.take start).length = start := by
        simp [Nat.min_eq_left hs]
      unfold insertLoop
      rw [if_pos hs]
      have hlen : start ≤ (s.take start ++ g :: s.drop start).length := by
        rw [List.length_append, htk]
        omega
      rw [ih _ hlen]
      rw [List.take_append_of_le_length (by omega), List.take_take,
        Nat.min_self, List.drop_left' htk]
      simp

/-- Helper: the list left after the removal loop still has at least
start elements when the original did. -/
theorem removeLoop_start_le (start k : Nat) (s : List StyledGrapheme)
    (hs : start ≤ s.length) :
    start ≤ (removeLoop start k s).length := by
  rw [removeLoop_eq start k s hs, List.length_append]
  have : (s.take start).length = start := by simp [Nat.min_eq_left hs]
  omega

end Promkit

/-! ## Theorems: replace_range claims -/

namespace Promkit

/-- C3 counterexample: replace_range panics (VecDeque::insert out of
bounds) on the 3-unit sequence from "abc" with range 5..6 and a nonempty
replacement, so out-of-range indices are not always clamped or no-ops. -/
theorem replace_range_panics_counterexample :
    replace_range (from_str ([Char.ofNat 97, Char.ofNat 98, Char.ofNat 99])
        ContentStyle.default) 5 6 [Char.ofNat 120] = none := by
  decide

/-- C3 amended: replace_range never panics provided range.start does not
exceed the current length; the range end may lie anywhere (excess
removals are silent no-ops). -/
theorem replace_range_no_panic_of_start_le (s : List StyledGrapheme)
    (start stop : Nat) (replacement : List Char) (h : start ≤ s.length) :
    (replace_range s start stop replacement).isSome := by
  unfold replace_range
  rw [insertLoop_eq start _ _ (removeLoop_start_le start (stop - start) s h)]
  rfl

/-- Witness for the amended C3 at a concrete in-range start. -/
theorem replace_range_no_panic_witness :
    (2 : Nat) ≤ (from_str [Char.ofNat 97, Char.ofNat 98, Char.ofNat 99]
        ContentStyle.default).length ∧
    (replace_range (from_str [Char.ofNat 97, Char.ofNat 98, Char.ofNat 99]
        ContentStyle.default) 2 9 [Char.ofNat 120]).isSome :=
  ⟨by decide,
   replace_range_no_panic_of_start_le _ 2 9 [Char.ofNat 120] (by decide)⟩

/-- C4: for an in-bounds range, replace_range yields exactly
prefix ++ replacement ++ suffix, the replacement units carrying the
default style; in particular the character content is the prefix
characters, then the replacement characters, then the suffix characters. -/
theorem replace_range_content (s : List StyledGrapheme) (start stop : Nat)
    (replacement : List Char) (h1 : start ≤ stop) (h2 : stop ≤ s.length) :
    replace_range s start stop replacement
      = some (s.take start ++ from_str replacement ContentStyle.default
          ++ s.drop stop) ∧
    (replace_range s start stop replacement).map graphemeChars
      = some (graphemeChars (s.take start) ++ replacement
          ++ graphemeChars (s.drop stop)) ∧
    ∀ g ∈ from_str replacement ContentStyle.default,
      g.style = ContentStyle.default := by
  have hs : start ≤ s.length := Nat.le_trans h1 h2
  have htk : (s.take start).length = start := by simp [Nat.min_eq_left hs]
  have hmain : replace_range s start stop replacement
      = some (s.take start ++ from_str replacement ContentStyle.default
          ++ s.drop stop) := by
    unfold replace_range
    rw [removeLoop_eq start (stop - start) s hs]
    have hstop : start + (stop - start) = stop := by omega
    rw [hstop]
    have hlen : start ≤ (s.take start ++ s.drop stop).length := by
      rw [List.length_append, htk]
      omega
    rw [insertLoop_eq start _ _ hlen]
    rw [List.take_append_of_le_length (by omega), List.take_take,
      Nat.min_self, List.drop_left' htk, List.reverse_reverse]
  refine ⟨hmain, ?_, ?_⟩
  · rw [hmain]
    have hrepl : List.map StyledGrapheme.ch
        (from_str replacement ContentStyle.default) = replacement := by
      unfold from_str
      rw [List.map_map]
      exact List.map_id' replacement
    simp [graphemeChars, hrepl]
  · intro g hg
    simp only [from_str, List.mem_map] at hg
    obtain ⟨c, _, rfl⟩ := hg
    rfl

/-- Witness for C4: replacing "ell" inside "Hello" range 1..4 by "i". -/
theorem replace_range_content_witness :
    (1 : Nat) ≤ 4 ∧
    (4 : Nat) ≤ (from_str [Char.ofNat 72, Char.ofNat 101, Char.ofNat 108,
        Char.ofNat 108, Char.ofNat 111] ContentStyle.default).length ∧
    (replace_range (from_str [Char.ofNat 72, Char.ofNat 101, Char.ofNat 108,
        Char.ofNat 108, Char.ofNat 111] ContentStyle.default) 1 4
        [Char.ofNat 105]).map graphemeChars
      = some [Char.ofNat 72, Char.ofNat 105, Char.ofNat 111] := by
  refine ⟨by decide, by decide, ?_⟩
  have h := (replace_range_content (from_str [Char.ofNat 72, Char.ofNat 101,
    Char.ofNat 108, Char.ofNat 108, Char.ofNat 111] ContentStyle.default)
    1 4 [Char.ofNat 105] (by decide) (by decide)).2.1
  rw [h]
  decide

end Promkit

/-! ## Theorems: truncate_to_width and matrixify claims -/

namespace Promkit

theorem widths_nil : widths [] = 0 := rfl

theorem widths_append_singleton (row : List StyledGrapheme)
    (g : StyledGrapheme) : widths (row ++ [g]) = widths row + g.width := by
  simp [widths]

/-- Helper: the truncation loop never lets the accumulated row exceed the
width. -/
theorem truncAux_width_le (width : Nat) :
    ∀ (l row : List StyledGrapheme), widths row ≤ width →
      widths (truncAux width row l) ≤ width := by
  intro l
  induction l with
  | nil => intro row h; exact h
  | cons ch rest ih =>
      intro row h
      unfold truncAux
      by_cases h1 : width < widths row + ch.width
      · rw [if_pos h1]; exact h
      · rw [if_neg h1]
        by_cases h2 : ch.width ≤ width
        · rw [if_pos h2]
          exact ih (row ++ [ch]) (by rw [widths_append_singleton]; omega)
        · rw [if_neg h2]
          exact ih row h

/-- Helper: when everything fits, the truncation loop keeps everything. -/
theorem truncAux_total (width : Nat) :
    ∀ (l row : List StyledGrapheme), widths row + widths l ≤ width →
      truncAux width row l = row ++ l := by
  intro l
  induction l with
  | nil => intro row _; simp [truncAux]
  | cons ch rest ih =>
      intro row h
      have hcw : widths (ch :: rest) = ch.width + widths rest := by
        simp [widths]
      unfold truncAux
      rw [if_neg (by omega), if_pos (by omega)]
      rw [ih (row ++ [ch]) (by rw [widths_append_singleton]; omega)]
      simp

/-- C7: truncate_to_width yields a sequence of total width at most the
bound, and returns the original sequence when it already fits. -/
theorem truncate_to_width_spec (s : List StyledGrapheme) (w : Nat) :
    widths (truncate_to_width s w) ≤ w ∧
    (widths s ≤ w → truncate_to_width s w = s) := by
  constructor
  · exact truncAux_width_le w s [] (by simp [widths_nil])
  · intro h
    unfold truncate_to_width
    rw [truncAux_total w s [] (by rw [widths_nil]; omega)]
    simp

/-- Witness for C7 at a concrete sequence that already fits. -/
theorem truncate_to_width_spec_witness :
    widths (truncate_to_width (from_str [Char.ofNat 97, Char.ofNat 98]
        ContentStyle.default) 5) ≤ 5 ∧
    (widths (from_str [Char.ofNat 97, Char.ofNat 98]
        ContentStyle.default) ≤ 5 ∧
     truncate_to_width (from_str [Char.ofNat 97, Char.ofNat 98]
        ContentStyle.default) 5
       = from_str [Char.ofNat 97, Char.ofNat 98] ContentStyle.default) :=
  ⟨(truncate_to_width_spec _ 5).1,
   by decide,
   (truncate_to_width_spec (from_str [Char.ofNat 97, Char.ofNat 98]
      ContentStyle.default) 5).2 (by decide)⟩

/-- Helper: one packing step preserves the bound on every closed row and
on the open row. -/
theorem matrixStep_inv (width : Nat)
    (st : List (List StyledGrapheme) × List StyledGrapheme)
    (g : StyledGrapheme)
    (h1 : ∀ r ∈ st.1, widths r ≤ width) (h2 : widths st.2 ≤ width) :
    (∀ r ∈ (matrixStep width st g).1, widths r ≤ width) ∧
    widths (matrixStep width st g).2 ≤ width := by
  obtain ⟨all, row⟩ := st
  unfold matrixStep
  dsimp only at h1 h2 ⊢
  by_cases hc : row ≠ [] ∧ width < widths row + g.width
  · rw [if_pos hc]
    dsimp only
    by_cases hg : g.width ≤ width
    · rw [if_pos hg]
      refine ⟨?_, ?_⟩
      · intro r hr
        rcases List.mem_append.mp hr with hr1 | hr2
        · exact h1 r hr1
        · rw [List.mem_singleton.mp hr2]; exact h2
      · dsimp only
        rw [widths_append_singleton, widths_nil]
        omega
    · rw [if_neg hg]
      refine ⟨?_, ?_⟩
      · intro r hr
        rcases List.mem_append.mp hr with hr1 | hr2
        · exact h1 r hr1
        · rw [List.mem_singleton.mp hr2]; exact h2
      · dsimp only
        rw [widths_nil]
        omega
  · rw [if_neg hc]
    dsimp only
    by_cases hg : g.width ≤ width
    · rw [if_pos hg]
      refine ⟨h1, ?_⟩
      dsimp only
      rw [widths_append_singleton]
      by_cases hrow : row = []
      · subst hrow
        rw [widths_nil]
        omega
      · have : ¬ width < widths row + g.width := by
          intro hlt
          exact hc ⟨hrow, hlt⟩
        omega
    · rw [if_neg hg]
      exact ⟨h1, h2⟩

/-- Helper: the fold of packing steps preserves the bound. -/
theorem foldl_matrixStep_inv (width : Nat) :
    ∀ (l : List StyledGrapheme)
      (st : List (List StyledGrapheme) × List StyledGrapheme),
      (∀ r ∈ st.1, widths r ≤ width) → widths st.2 ≤ width →
      (∀ r ∈ (l.foldl (matrixStep width) st).1, widths r ≤ width) ∧
      widths (l.foldl (matrixStep width) st).2 ≤ width := by
  intro l
  induction l with
  | nil => intro st h1 h2; exact ⟨h1, h2⟩
  | cons g rest ih =>
      intro st h1 h2
      rw [List.foldl_cons]
      have step := matrixStep_inv width st g h1 h2
      exact ih (matrixStep width st g) step.1 step.2

/-- Helper: every row built by buildRows has width at most the bound. -/
theorem buildRows_width (s : List StyledGrapheme) (width : Nat) :
    ∀ r ∈ buildRows s width, widths r ≤ width := by
  intro r hr
  unfold buildRows at hr
  dsimp only at hr
  have base := foldl_matrixStep_inv width s ([], [])
    (by intro x hx; cases hx) (by rw [widths_nil]; omega)
  by_cases hlast : (s.foldl (matrixStep width) ([], [])).2 ≠ []
  · rw [if_pos hlast] at hr
    rcases List.mem_append.mp hr with hr1 | hr2
    · exact base.1 r hr1
    · rw [List.mem_singleton.mp hr2]
      exact base.2
  · rw [if_neg hlast] at hr
    exact base.1 r hr

/-- Helper: every chunk produced by the chunking loop has at most n
elements, all drawn from the original list. -/
theorem chunksGo_spec {α : Type} (n : Nat) (hn : n ≠ 0) :
    ∀ (fuel : Nat) (l : List α), ∀ c ∈ chunksGo n fuel l,
      c.length ≤ n ∧ ∀ x ∈ c, x ∈ l := by
  intro fuel
  induction fuel with
  | zero =>
      intro l c hc
      match l with
      | [] => simp [chunksGo] at hc
      | x :: xs => simp [chunksGo] at hc
  | succ fuel ih =>
      intro l c hc
      match l with
      | [] => simp [chunksGo] at hc
      | x :: xs =>
          unfold chunksGo at hc
          rw [if_neg hn] at hc
          rcases List.mem_cons.mp hc with rfl | hc2
          · exact ⟨List.length_take_le n _, fun y hy => List.mem_of_mem_take hy⟩
          · have := ih ((x :: xs).drop n) c hc2
            exact ⟨this.1, fun y hy => List.mem_of_mem_drop (this.2 y hy)⟩

/-- Helper: chunksOf restated through the loop lemma. -/
theorem chunksOf_spec {α : Type} (n : Nat) (hn : n ≠ 0) (l : List α) :
    ∀ c ∈ chunksOf n l, c.length ≤ n ∧ ∀ x ∈ c, x ∈ l :=
  chunksGo_spec n hn l.length l

/-- C6: for a positive height, a non-panicking matrixify call returns a
selected page of at most height rows, every row of total width at most
width. -/
theorem matrixify_page_bounds (s : List StyledGrapheme)
    (width height offset : Nat) (hh : 0 < height)
    (page : List (List StyledGrapheme)) (loff : Nat)
    (hm : matrixify s width height offset = some (page, loff)) :
    page.length ≤ height ∧ ∀ row ∈ page, widths row ≤ width := by
  unfold matrixify at hm
  dsimp only at hm
  by_cases he : (buildRows s width).isEmpty
  · rw [if_pos he] at hm
    simp only [Option.some.injEq, Prod.mk.injEq] at hm
    obtain ⟨hp, _⟩ := hm
    subst hp
    exact ⟨by simp, fun row hrow => absurd hrow (List.not_mem_nil row)⟩
  · rw [if_neg he, if_neg (by omega)] at hm
    simp only [Option.some.injEq, Prod.mk.injEq] at hm
    obtain ⟨hp, _⟩ := hm
    cases hget : (chunksOf height (buildRows s width)).get?
        (min (offset / height)
          ((chunksOf height (buildRows s width)).length - 1)) with
    | none =>
        rw [hget] at hp
        subst hp
        exact ⟨by simp, fun row hrow => absurd hrow (List.not_mem_nil row)⟩
    | some c =>
        rw [hget] at hp
        have hmem : c ∈ chunksOf height (buildRows s width) :=
          List.get?_mem hget
        have hspec := chunksOf_spec height (by omega) (buildRows s width)
          c hmem
        subst hp
        exact ⟨hspec.1, fun row hrow =>
          buildRows_width s width row (hspec.2 row hrow)⟩

/-- Witness for C6 at a concrete call. -/
theorem matrixify_page_bounds_witness :
    (0 : Nat) < 2 ∧
    matrixify (from_str [Char.ofNat 97, Char.ofNat 98, Char.ofNat 99,
        Char.ofNat 100, Char.ofNat 101] ContentStyle.default) 2 2 0
      = some ([[StyledGrapheme.new (Char.ofNat 97) ContentStyle.default,
                StyledGrapheme.new (Char.ofNat 98) ContentStyle.default],
               [StyledGrapheme.new (Char.ofNat 99) ContentStyle.default,
                StyledGrapheme.new (Char.ofNat 100) ContentStyle.default]], 0) ∧
    ([[StyledGrapheme.new (Char.ofNat 97) ContentStyle.default,
       StyledGrapheme.new (Char.ofNat 98) ContentStyle.default],
      [StyledGrapheme.new (Char.ofNat 99) ContentStyle.default,
       StyledGrapheme.new (Char.ofNat 100) ContentStyle.default]] :
        List (List StyledGrapheme)).length ≤ 2 := by
  refine ⟨by decide, by decide, ?_⟩
  exact (matrixify_page_bounds (from_str [Char.ofNat 97, Char.ofNat 98,
    Char.ofNat 99, Char.ofNat 100, Char.ofNat 101] ContentStyle.default)
    2 2 0 (by decide)
    [[StyledGrapheme.new (Char.ofNat 97) ContentStyle.default,
      StyledGrapheme.new (Char.ofNat 98) ContentStyle.default],
     [StyledGrapheme.new (Char.ofNat 99) ContentStyle.default,
      StyledGrapheme.new (Char.ofNat 100) ContentStyle.default]]
    0 (by decide)).1

end Promkit

/-! ## Theorems: prompt loop claim -/

namespace Promkit

/-- C1: the loop exits to result production on a tick exactly when the
dispatch flagged a quit and the evaluator returned true on that same
tick; a quit with a false evaluator continues the loop (redraw). -/
theorem run_tick_exit_iff (responses : List (Except Unit EventAction))
    (evaluated : Except Unit Bool) :
    (runTick responses evaluated = TickOutcome.exitLoop ↔
      (dispatchQuit responses = Except.ok true ∧
       evaluated = Except.ok true)) ∧
    (dispatchQuit responses = Except.ok true →
      evaluated = Except.ok false →
      runTick responses evaluated = TickOutcome.continueLoop) := by
  unfold runTick
  cases hd : dispatchQuit responses with
  | error e =>
      constructor
      · constructor
        · intro h; cases h
        · intro ⟨h1, _⟩; cases h1
      · intro h1; cases h1
  | ok should_quit =>
      cases evaluated with
      | error e =>
          constructor
          · constructor
            · intro h; cases h
            · intro ⟨_, h2⟩; cases h2
          · intro _ h2; cases h2
      | ok ready =>
          cases should_quit <;> cases ready <;>
            simp

/-- Witness for C1: a quit with a false evaluator continues the loop. -/
theorem run_tick_exit_iff_witness :
    (runTick [Except.ok EventAction.Quit] (Except.ok true)
        = TickOutcome.exitLoop ↔
      (dispatchQuit [Except.ok EventAction.Quit] = Except.ok true ∧
       (Except.ok true : Except Unit Bool) = Except.ok true)) ∧
    (dispatchQuit [Except.ok EventAction.Quit] = Except.ok true ∧
     runTick [Except.ok EventAction.Quit] (Except.ok false)
        = TickOutcome.continueLoop) :=
  ⟨(run_tick_exit_iff [Except.ok EventAction.Quit] (Except.ok true)).1,
   rfl,
   (run_tick_exit_iff [Except.ok EventAction.Quit] (Except.ok false)).2
     rfl rfl⟩

end Promkit

/-! ## Theorems: SelectBox claim -/

namespace Promkit

/-- C10: to_tail panics on an empty data list (usize underflow of
data.len() - 1) instead of clamping, and for nonempty data sets the index
to data.len() - 1. -/
theorem select_box_to_tail_spec (b : SelectBox) :
    (b.data = [] → b.to_tail = none) ∧
    (b.data ≠ [] →
      b.to_tail = some { b with idx := b.data.length - 1 }) := by
  constructor
  · intro h
    unfold SelectBox.to_tail
    rw [if_pos (by rw [h]; rfl)]
  · intro h
    unfold SelectBox.to_tail
    rw [if_neg (by simpa using h)]

/-- Witness for C10 at an empty and a nonempty select box. -/
theorem select_box_to_tail_spec_witness :
    ((⟨[], 0⟩ : SelectBox).to_tail = none) ∧
    ((⟨[[Char.ofNat 97], [Char.ofNat 98], [Char.ofNat 99]], 0⟩ :
        SelectBox).to_tail
      = some ⟨[[Char.ofNat 97], [Char.ofNat 98], [Char.ofNat 99]], 2⟩) :=
  ⟨(select_box_to_tail_spec ⟨[], 0⟩).1 rfl,
   (select_box_to_tail_spec
      ⟨[[Char.ofNat 97], [Char.ofNat 98], [Char.ofNat 99]], 0⟩).2
     (by decide)⟩

end Promkit
